import Mathlib

/-!
# Verification of the HabitatAgent property-search core

Shallow embedding of the hybrid property search and ranking pipeline:

* `build_query` / `mdbFind` embed `MongoDBFilter.build_query` and the
  `collection.find` call of `src/mcp_servers/searching/utilities/mdb_filter.py`.
* `finalScore` / `rerank` embed `HybridReranker.rerank` of
  `src/V2/mcp/searching/utilities/reranker.py`, with the embedding-model cosine
  similarity and the BM25 library scores abstracted as given score functions.
* `rankStep` / `pipelineSearch` / `searchProperties` embed
  `PropertySearchPipeline.search` and the `search_properties` tool of
  `src/V2/mcp/searching/server.py`, with the LLM query parser and the MongoDB
  find call abstracted as function parameters.

Machine floats of the Python code are modelled as rationals; Python lists as
`List`; fallible calls as `Except String`.
-/

namespace HabitatAgent

/-- A Python value that can appear in the `price` field of the parsed message:
the LLM parser's Pydantic schema declares `price: Optional[int]`, but the JSON
output parser can also hand through a string.  `build_query` only uses the
value's truthiness and its `str(...)` form, so those two are what we model. -/
inductive PyVal where
  | int (n : Int)
  | str (s : String)
deriving DecidableEq

/-- Python truthiness of a `PyVal` (`0` and `""` are falsy). -/
def PyVal.truthy : PyVal → Bool
  | .int n => n ≠ 0
  | .str s => s ≠ ""

/-- Python `str(...)` of a `PyVal`. -/
def PyVal.toStr : PyVal → String
  | .int n => toString n
  | .str s => s

/-- A stored rental listing, restricted to the fields the candidate filter
reads: the text index of `_ensure_indexes` covers `address` and `title`, and
the numeric filter applies to `rent_price`. -/
structure Listing where
  address : String
  title : String
  rent_price : Nat
deriving DecidableEq

/-- The parsed user message consumed by `MongoDBFilter.build_query`: the
dictionary keys `location` and `price` (`None`/missing modelled as `none`). -/
structure ParsedMessage where
  location : Option String
  price : Option PyVal
deriving DecidableEq

/-- The MongoDB query built by `build_query`: an optional `$text`/`$search`
clause and an optional `rent_price`/`$lte` bound. -/
structure MongoQuery where
  textSearch : Option String
  rentLte : Option Nat
deriving DecidableEq

/-- The decimal digit characters of a string, in order
(`"".join(ch for ch in str(price) if ch.isdigit())` in `build_query`). -/
def priceDigits (s : String) : List Char :=
  s.toList.filter Char.isDigit

/-- Python `int(...)` applied to a nonempty string of decimal digits: the
value obtained by decimal accumulation over the digit characters. -/
def digitsToNat (ds : List Char) : Nat :=
  ds.foldl (fun acc c => 10 * acc + (c.toNat - 48)) 0

/-- Embeds `MongoDBFilter.build_query` (mdb_filter.py lines 82-99): a truthy
`location` adds a `$text` search clause; a truthy `price` adds an inclusive
`rent_price ≤ v` clause where `v` is the integer formed from the digit
characters of `str(price)`, and adds nothing (raising no error) when there is
no digit character. -/
def build_query (pm : ParsedMessage) : MongoQuery :=
  let ts : Option String :=
    match pm.location with
    | some s => if s ≠ "" then some s else none
    | none => none
  let rl : Option Nat :=
    match pm.price with
    | some v =>
        if v.truthy then
          let ds := priceDigits v.toStr
          if ds ≠ [] then some (digitsToNat ds) else none
        else none
    | none => none
  ⟨ts, rl⟩

/-- Lower-cased character list of a string (case-insensitivity of MongoDB text
search and of the spec's containment check). -/
def lowerChars (s : String) : List Char :=
  s.toList.map Char.toLower

/-- Split a character list into maximal space-free words. -/
def splitWS (cs : List Char) : List (List Char) :=
  (cs.foldr
    (fun c acc =>
      if c = ' ' then [] :: acc
      else
        match acc with
        | [] => [[c]]
        | w :: ws => (c :: w) :: ws)
    [[]]).filter (fun w => w ≠ [])

/-- Model of MongoDB `$text` matching against the collection's text index,
which `_ensure_indexes` builds over the fields `address` and `title`: the
search string is tokenized on whitespace, and a document matches when any
search token occurs (case-insensitively) as a token of the indexed fields.
MongoDB stemming is omitted from the model. -/
def textMatches (search : String) (L : Listing) : Bool :=
  let q := splitWS (lowerChars search)
  let dt := splitWS (lowerChars L.address) ++ splitWS (lowerChars L.title)
  q.any (fun t => decide (t ∈ dt))

/-- A listing satisfies a built query: every present clause must hold
(MongoDB combines top-level clauses with logical AND). -/
def listingMatches (q : MongoQuery) (L : Listing) : Bool :=
  (match q.textSearch with
   | none => true
   | some s => textMatches s L) &&
  (match q.rentLte with
   | none => true
   | some b => decide (L.rent_price ≤ b))

/-- Embeds `list(self.collection.find(query))`: the stored listings that
satisfy the query, in store order. -/
def mdbFind (store : List Listing) (q : MongoQuery) : List Listing :=
  store.filter (listingMatches q)

/-- `pat` occurs as a contiguous substring of `hay`. -/
def hasInfix (hay pat : List Char) : Bool :=
  match hay with
  | [] => pat.isEmpty
  | _ :: t => pat.isPrefixOf hay || hasInfix t pat

/-- Spec-side predicate of the filter-correctness claim, following the spec's
words: the listing's location field contains the query location,
case-insensitively.  (The listing's location-bearing field is `address`.) -/
def specLocContains (loc : String) (L : Listing) : Bool :=
  hasInfix (lowerChars L.address) (lowerChars loc)

/-- The location clause of the code's filter, as a proposition over the parsed
message: absent or empty location constrains nothing, otherwise the `$text`
match must hold. -/
def locClauseOK (pm : ParsedMessage) (L : Listing) : Prop :=
  ∀ s, pm.location = some s → s ≠ "" → textMatches s L = true

/-- The price clause of the code's filter, as a proposition over the parsed
message: absent or falsy price, or a price whose string form has no digit
character, constrains nothing; otherwise the rent must not exceed the integer
formed from the digit characters. -/
def priceClauseOK (pm : ParsedMessage) (L : Listing) : Prop :=
  ∀ v, pm.price = some v → v.truthy = true → priceDigits v.toStr ≠ [] →
    L.rent_price ≤ digitsToNat (priceDigits v.toStr)

/-! ## Hybrid reranker (`HybridReranker.rerank`, reranker.py lines 87-126)

The cosine similarity of the sentence-transformer embeddings and the
`rank_bm25` keyword scores are external numeric capabilities; they enter the
model as score functions `sem` and `lex` over the candidates (for one call,
the code derives both from the fixed preference text and candidate corpus).
Float arithmetic is modelled over `ℚ`. -/

/-- The hybrid score of one candidate:
`final_score = self.alpha * emb_score + self.beta * bm25_score`
(reranker.py line 122). -/
def finalScore (a b : ℚ) (sem lex : α → ℚ) (c : α) : ℚ :=
  a * sem c + b * lex c

/-- The comparator under which the code's
`final_scores.sort(reverse=True, key=lambda x: x[0])` orders candidates:
`x` may stay before `y` exactly when `x`'s score is at least `y`'s.
Python's sort is stable, also with `reverse=True`. -/
def scoreDescLE (a b : ℚ) (sem lex : α → ℚ) (x y : α) : Bool :=
  decide (finalScore a b sem lex y ≤ finalScore a b sem lex x)

/-- Embeds `HybridReranker.rerank` (reranker.py lines 114-126): score every
candidate with `finalScore` and stable-sort the candidate list by that score,
descending.  Python's stable sort of the `(final_score, c)` pairs keyed on the
score is the stable `mergeSort` under `scoreDescLE`. -/
def rerank (a b : ℚ) (sem lex : α → ℚ) (cs : List α) : List α :=
  cs.mergeSort (scoreDescLE a b sem lex)

/-! ## Pipeline orchestration (`server.py`)

The LLM message parser (`UserMessageParser.extract`) and the MongoDB lookup of
the V2 filter are external collaborators of `PropertySearchPipeline.search`;
they enter the model as function parameters.  A raised Python exception is
modelled as `Except.error`. -/

/-- The structured fields the V2 parser produces for the pipeline
(`location`, `price`, `rag_content`); `parsed_message.get("rag_content", "")`
defaults a missing preference text to `""`, so `ragContent` is a plain
string. -/
structure ParsedQueryV2 where
  location : Option String
  price : Option PyVal
  ragContent : String

/-- A string that Python's `.strip()` reduces to the empty (falsy) string:
every character is whitespace. -/
def isBlank (s : String) : Bool :=
  s.toList.all Char.isWhitespace

/-- The reranking step of `PropertySearchPipeline.search` (server.py lines
55-68): rerank only when the stripped preference text is non-empty AND there
are at least two candidates, otherwise pass the candidates through
unchanged. -/
def rankStep (rank : List α → Except String (List α)) (rag : String)
    (cs : List α) : Except String (List α) :=
  if ¬ isBlank rag ∧ 1 < cs.length then rank cs else .ok cs

/-- Embeds `PropertySearchPipeline.search` (server.py lines 26-77): parse the
message, fetch the candidates, return `[]` on an empty candidate set, apply
the conditional reranking step, truncate to the first `top_k` results.  The
method's `try/except` re-raises, so failures of the collaborators
propagate. -/
def pipelineSearch (parse : String → ParsedQueryV2)
    (find : ParsedQueryV2 → Except String (List α))
    (rank : ParsedQueryV2 → List α → Except String (List α))
    (msg : String) (topk : Nat) : Except String (List α) :=
  let pm := parse msg
  match find pm with
  | .error e => .error e
  | .ok cs =>
      if cs.isEmpty then .ok []
      else
        match rankStep (rank pm) pm.ragContent cs with
        | .error e => .error e
        | .ok ranked => .ok (ranked.take topk)

/-- The structured response of the `search_properties` tool (server.py lines
106-143): its `status`, `message`, `count` and `results` fields. -/
structure SearchResponse (α : Type) where
  status : String
  message : String
  count : Nat
  results : List α
deriving DecidableEq

/-- Embeds the result packaging of `search_properties`: an exception becomes
the `"error"` response; an empty result list becomes the zero-count
`"success"` response; otherwise a `"success"` response carrying the results
and their count. -/
def searchProperties (run : Except String (List α)) : SearchResponse α :=
  match run with
  | .error e => ⟨"error", "Search failed: " ++ e, 0, []⟩
  | .ok [] => ⟨"success", "No properties found matching your criteria", 0, []⟩
  | .ok rs => ⟨"success", "Found " ++ toString rs.length ++ " matching properties",
      rs.length, rs⟩

/-- A listing used as concrete input in counterexamples and witnesses. -/
def cexListing : Listing :=
  ⟨"12 maple street", "cozy studio downtown", 100⟩

/-! ## General facts about the comparator and the stable sort -/

theorem scoreDescLE_trans (a b : ℚ) (sem lex : α → ℚ) :
    ∀ x y z, scoreDescLE a b sem lex x y → scoreDescLE a b sem lex y z →
      scoreDescLE a b sem lex x z := by
  intro x y z hxy hyz
  simp only [scoreDescLE, decide_eq_true_eq] at *
  exact le_trans hyz hxy

theorem scoreDescLE_total (a b : ℚ) (sem lex : α → ℚ) :
    ∀ x y, scoreDescLE a b sem lex x y || scoreDescLE a b sem lex y x := by
  intro x y
  simp only [scoreDescLE, Bool.or_eq_true, decide_eq_true_eq]
  exact le_total _ _

/-! ## Claim theorems -/

/-- C2: for every candidate list of size at most 1, and for every preference
text that is empty or whitespace-only, the reranking step returns the input
candidate list unchanged, in the same order.  (The short-circuit is
implemented at the pipeline layer, server.py lines 55-68.) -/
theorem claimC2_rank_short_circuit (rank : List α → Except String (List α))
    (rag : String) (cs : List α) (h : isBlank rag = true ∨ cs.length ≤ 1) :
    rankStep rank rag cs = .ok cs := by
  rw [rankStep, if_neg]
  rintro ⟨h1, h2⟩
  rcases h with h | h
  · exact h1 h
  · omega

theorem claimC2_rank_short_circuit_witness :
    isBlank "   " = true ∧
      rankStep (fun cs => .ok cs.reverse) "   " [(1 : Nat), 2, 3] = .ok [1, 2, 3] :=
  ⟨by decide, claimC2_rank_short_circuit _ _ _ (Or.inl (by decide))⟩

/-- C3: for every rerank call with at least two candidates, the output list
is a permutation of the input candidate list: no candidate is dropped or
duplicated.  (The model proves it for every call; the preference text enters
only through the abstracted score functions.) -/
theorem claimC3_rank_permutation (a b : ℚ) (sem lex : α → ℚ) (cs : List α)
    (h : 2 ≤ cs.length) : (rerank a b sem lex cs).Perm cs :=
  List.mergeSort_perm cs _

theorem claimC3_rank_permutation_witness :
    2 ≤ [(10 : ℚ), 20, 30].length ∧
      (rerank 1 1 id id [(10 : ℚ), 20, 30]).Perm [10, 20, 30] :=
  ⟨by decide, claimC3_rank_permutation 1 1 id id _ (by decide)⟩

/-- C4: each candidate's final score is `alpha * semantic + beta * lexical`,
with no normalization of either sub-score, and the output is sorted by final
score in descending order. -/
theorem claimC4_score_combination (a b : ℚ) (sem lex : α → ℚ) (cs : List α) :
    (∀ c, finalScore a b sem lex c = a * sem c + b * lex c) ∧
    (rerank a b sem lex cs).Pairwise
      (fun x y => finalScore a b sem lex y ≤ finalScore a b sem lex x) := by
  refine ⟨fun c => rfl, ?_⟩
  have h := List.sorted_mergeSort (scoreDescLE_trans a b sem lex)
    (scoreDescLE_total a b sem lex) cs
  exact h.imp (fun hxy => by simpa [scoreDescLE] using hxy)

/-- C5: candidates with equal final scores keep their input relative order in
the rerank output (the sort is stable, with no secondary key). -/
theorem claimC5_stable_ties (a b : ℚ) (sem lex : α → ℚ) (cs : List α) (x y : α)
    (hscore : finalScore a b sem lex x = finalScore a b sem lex y)
    (hsub : [x, y].Sublist cs) :
    [x, y].Sublist (rerank a b sem lex cs) := by
  have hle : scoreDescLE a b sem lex x y = true := by
    simp [scoreDescLE, hscore]
  exact List.sublist_mergeSort (scoreDescLE_trans a b sem lex)
    (scoreDescLE_total a b sem lex) (by simp [hle]) hsub

theorem claimC5_stable_ties_witness :
    finalScore 1 1 (fun _ => (0 : ℚ)) (fun _ => 0) (1 : Nat) =
        finalScore 1 1 (fun _ => (0 : ℚ)) (fun _ => 0) 2 ∧
      [1, 2].Sublist (rerank 1 1 (fun _ => (0 : ℚ)) (fun _ => 0) [1, 2]) :=
  ⟨rfl, claimC5_stable_ties 1 1 _ _ [1, 2] 1 2 rfl (List.Sublist.refl _)⟩

/-- C9: rerank is deterministic: two calls with the same candidates, the same
weights and extensionally equal (deterministic) semantic and lexical scoring
functions produce identical output order. -/
theorem claimC9_deterministic (a b : ℚ) (sem₁ sem₂ lex₁ lex₂ : α → ℚ)
    (cs : List α) (hsem : ∀ c, sem₁ c = sem₂ c) (hlex : ∀ c, lex₁ c = lex₂ c) :
    rerank a b sem₁ lex₁ cs = rerank a b sem₂ lex₂ cs := by
  rw [funext hsem, funext hlex]

theorem claimC9_deterministic_witness :
    (∀ c : ℚ, (fun n : ℚ => n) c = (fun n : ℚ => n + 0) c) ∧
      rerank 1 2 (fun n : ℚ => n) (fun _ => 0) [5, 7] =
        rerank 1 2 (fun n : ℚ => n + 0) (fun _ => 0) [5, 7] :=
  ⟨fun c => by ring,
    claimC9_deterministic 1 2 _ _ _ _ [5, 7] (fun c => by ring) (fun _ => rfl)⟩

/-- C10 counterexample: the claim quantifies over every parsed query whose
price field is present, but for the present price `0` the string
representation `"0"` has a digit character while `build_query`'s truthiness
guard (`if parsed_message.get("price"):`) adds no rent constraint at all —
no bound `0` is formed. -/
theorem claimC10_cex :
    (⟨none, some (.int 0)⟩ : ParsedMessage).price = some (.int 0) ∧
    priceDigits (PyVal.int 0).toStr = ['0'] ∧
    (build_query ⟨none, some (.int 0)⟩).rentLte = none := by
  refine ⟨rfl, by decide, by decide⟩

/-- C10 (amended): for every parsed query whose price field is present and
truthy (non-zero, non-empty), the rent bound is the integer read off the
concatenated decimal digit characters of the price value's string
representation (`"2,200"` yields `2200`, `"1.5"` yields `15`); if that
representation has no digit character, or the present price is falsy (such
as `0` or `""`), no rent constraint is added and no error is raised (the
code's `except` clause only prints). -/
theorem claimC10_price_digits (pm : ParsedMessage) (v : PyVal)
    (hv : pm.price = some v) :
    (v.truthy = true → priceDigits v.toStr ≠ [] →
      (build_query pm).rentLte = some (digitsToNat (priceDigits v.toStr))) ∧
    (v.truthy = true → priceDigits v.toStr = [] →
      (build_query pm).rentLte = none) ∧
    (v.truthy = false → (build_query pm).rentLte = none) ∧
    digitsToNat (priceDigits "2,200") = 2200 ∧
    digitsToNat (priceDigits "1.5") = 15 := by
  refine ⟨?_, ?_, ?_, by decide, by decide⟩
  · intro htr hd
    simp [build_query, hv, htr, hd]
  · intro htr hd
    simp [build_query, hv, htr, hd]
  · intro htr
    simp [build_query, hv, htr]

theorem claimC10_price_digits_witness :
    (⟨none, some (.str "2,200")⟩ : ParsedMessage).price = some (.str "2,200") ∧
    (PyVal.str "2,200").truthy = true ∧
    priceDigits (PyVal.str "2,200").toStr ≠ [] ∧
    (build_query ⟨none, some (.str "2,200")⟩).rentLte =
      some (digitsToNat (priceDigits (PyVal.str "2,200").toStr)) :=
  ⟨rfl, by decide, by decide,
    (claimC10_price_digits ⟨none, some (.str "2,200")⟩ _ rfl).1
      (by decide) (by decide)⟩

/-- C6 counterexample: against a store with no matching documents the search
tool's zero-match response carries status `"success"` (with a "No properties
found" message and count 0), not status `"empty"` as claimed. -/
theorem claimC6_cex :
    (searchProperties (pipelineSearch
        (fun _ => ⟨some "Nowhereville", some (.int 500), "2BHK"⟩)
        (fun _ => .ok ([] : List Listing)) (fun _ cs => .ok cs)
        "2BHK in Nowhereville under 500" 10)).status = "success" ∧
    ¬ (searchProperties (pipelineSearch
        (fun _ => ⟨some "Nowhereville", some (.int 500), "2BHK"⟩)
        (fun _ => .ok ([] : List Listing)) (fun _ cs => .ok cs)
        "2BHK in Nowhereville under 500" 10)).status = "empty" := by
  constructor
  · rfl
  · decide

/-- C6 (amended): a query whose filter stage finds no documents yields the
structured outcome with status `"success"`, message `"No properties found
matching your criteria"`, count 0 and empty results, while an exception in
the filter or in the ranker yields status `"error"` — so the two outcomes
stay distinguishable, but the zero-match status literal is `"success"`, not
`"empty"`. -/
theorem claimC6_empty_vs_error (parse : String → ParsedQueryV2)
    (find : ParsedQueryV2 → Except String (List Listing))
    (rank : ParsedQueryV2 → List Listing → Except String (List Listing))
    (msg : String) (k : Nat) :
    (find (parse msg) = .ok [] →
      searchProperties (pipelineSearch parse find rank msg k) =
        ⟨"success", "No properties found matching your criteria", 0, []⟩) ∧
    (∀ e, find (parse msg) = .error e →
      searchProperties (pipelineSearch parse find rank msg k) =
        ⟨"error", "Search failed: " ++ e, 0, []⟩) ∧
    (∀ e cs, find (parse msg) = .ok cs → cs.isEmpty = false →
      rankStep (rank (parse msg)) (parse msg).ragContent cs = .error e →
      searchProperties (pipelineSearch parse find rank msg k) =
        ⟨"error", "Search failed: " ++ e, 0, []⟩) := by
  refine ⟨?_, ?_, ?_⟩
  · intro hf
    simp [pipelineSearch, hf, searchProperties]
  · intro e hf
    simp [pipelineSearch, hf, searchProperties]
  · intro e cs hf hcs hr
    simp [pipelineSearch, hf, hcs, hr, searchProperties]

theorem claimC6_empty_vs_error_witness :
    (fun _ : ParsedQueryV2 => (Except.ok [] : Except String (List Listing)))
        ((fun _ : String => (⟨none, none, ""⟩ : ParsedQueryV2)) "anything") =
      (Except.ok [] : Except String (List Listing)) ∧
    searchProperties (pipelineSearch (fun _ => (⟨none, none, ""⟩ : ParsedQueryV2))
        (fun _ => (Except.ok [] : Except String (List Listing)))
        (fun _ cs => .ok cs) "anything" 10) =
      ⟨"success", "No properties found matching your criteria", 0, []⟩ :=
  ⟨rfl, (claimC6_empty_vs_error _ _ _ "anything" 10).1 rfl⟩

/-- C7: with a ranked candidate sequence `r` and positive `top_k`, the
pipeline returns exactly the first `top_k` elements of `r` in rank order —
`min r.length top_k` of them — and the packaged response reports a count
equal to the number of returned results. -/
theorem claimC7_truncation (parse : String → ParsedQueryV2)
    (find : ParsedQueryV2 → Except String (List α))
    (rank : ParsedQueryV2 → List α → Except String (List α))
    (msg : String) (k : Nat) (cs r : List α)
    (hf : find (parse msg) = .ok cs)
    (hr : rankStep (rank (parse msg)) (parse msg).ragContent cs = .ok r)
    (hk : 0 < k) :
    pipelineSearch parse find rank msg k = .ok (r.take k) ∧
    (r.take k).length = min r.length k ∧
    (searchProperties (pipelineSearch parse find rank msg k)).count =
      (r.take k).length ∧
    (searchProperties (pipelineSearch parse find rank msg k)).results = r.take k := by
  have hpipe : pipelineSearch parse find rank msg k = .ok (r.take k) := by
    simp only [pipelineSearch]
    rw [hf]
    by_cases hcs : cs.isEmpty
    · have hnil : cs = [] := List.isEmpty_iff.mp hcs
      subst hnil
      have : rankStep (rank (parse msg)) (parse msg).ragContent ([] : List α) =
          .ok [] := by
        rw [rankStep, if_neg]
        rintro ⟨-, h2⟩
        simp at h2
      rw [this] at hr
      cases hr
      simp [hcs]
    · simp [hcs, hr]
  refine ⟨hpipe, by rw [List.length_take, Nat.min_comm], ?_, ?_⟩ <;>
    · rw [hpipe]
      cases htk : r.take k with
      | nil => simp [searchProperties, htk]
      | cons hd tl => simp [searchProperties, htk]

theorem claimC7_truncation_witness :
    (0 : Nat) < 5 ∧
    pipelineSearch (fun _ => (⟨none, none, ""⟩ : ParsedQueryV2))
        (fun _ => .ok [1, 2, 3, 4, 5, 6, 7, 8]) (fun _ cs => .ok cs) "q" 5 =
      .ok ([(1 : Nat), 2, 3, 4, 5, 6, 7, 8].take 5) :=
  ⟨by decide,
    (claimC7_truncation (fun _ => (⟨none, none, ""⟩ : ParsedQueryV2))
      (fun _ => .ok [1, 2, 3, 4, 5, 6, 7, 8]) (fun _ cs => .ok cs) "q" 5
      [1, 2, 3, 4, 5, 6, 7, 8] [1, 2, 3, 4, 5, 6, 7, 8] rfl
      (by rw [rankStep, if_neg]; rintro ⟨h1, -⟩; exact h1 rfl)
      (by decide)).1⟩

/-- The built query's matching unfolds to the location and price clauses over
the parsed message. -/
theorem listingMatches_build_query (pm : ParsedMessage) (L : Listing) :
    listingMatches (build_query pm) L = true ↔
      locClauseOK pm L ∧ priceClauseOK pm L := by
  obtain ⟨loc, pr⟩ := pm
  cases loc with
  | none =>
    cases pr with
    | none => simp [listingMatches, build_query, locClauseOK, priceClauseOK]
    | some v =>
      by_cases hv : v.truthy = true
      · by_cases hd : priceDigits v.toStr = []
        · simp [listingMatches, build_query, locClauseOK, priceClauseOK, hv, hd]
        · simp [listingMatches, build_query, locClauseOK, priceClauseOK, hv, hd]
      · simp [listingMatches, build_query, locClauseOK, priceClauseOK, hv]
  | some s =>
    by_cases hs : s = ""
    · subst hs
      cases pr with
      | none => simp [listingMatches, build_query, locClauseOK, priceClauseOK]
      | some v =>
        by_cases hv : v.truthy = true
        · by_cases hd : priceDigits v.toStr = []
          · simp [listingMatches, build_query, locClauseOK, priceClauseOK, hv, hd]
          · simp [listingMatches, build_query, locClauseOK, priceClauseOK, hv, hd]
        · simp [listingMatches, build_query, locClauseOK, priceClauseOK, hv]
    · cases pr with
      | none => simp [listingMatches, build_query, locClauseOK, priceClauseOK, hs]
      | some v =>
        by_cases hv : v.truthy = true
        · by_cases hd : priceDigits v.toStr = []
          · simp [listingMatches, build_query, locClauseOK, priceClauseOK,
              hs, hv, hd]
          · simp [listingMatches, build_query, locClauseOK, priceClauseOK,
              hs, hv, hd]
        · simp [listingMatches, build_query, locClauseOK, priceClauseOK, hs, hv]

/-- C1 counterexample: the filter's location constraint is MongoDB text
search over the indexed fields `address` and `title`, not substring
containment in the location field: a listing whose address does not contain
the query location still matches through its title.  Concretely, for the
query location `"cozy"` and the stored listing with address
`"12 maple street"` and title `"cozy studio downtown"`, the listing is in the
filter output although its location field does not contain `"cozy"`. -/
theorem claimC1_cex :
    cexListing ∈ mdbFind [cexListing] (build_query ⟨some "cozy", none⟩) ∧
    ¬ specLocContains "cozy" cexListing = true := by
  constructor
  · decide
  · decide

/-- C1 (amended): a stored listing appears in the filter output exactly when
(the location is absent or empty, or some whitespace token of it occurs
case-insensitively among the tokens of the listing's `address` or `title`)
and (the price is absent or falsy, or its string form has no digit character,
or the listing's `rent_price` is at most the integer formed from the digit
characters of the price — an inclusive bound with no lower bound); with both
fields absent the query is empty and every stored listing is returned. -/
theorem claimC1_filter_correctness (store : List Listing) (pm : ParsedMessage)
    (L : Listing) :
    (L ∈ mdbFind store (build_query pm) ↔
      L ∈ store ∧ locClauseOK pm L ∧ priceClauseOK pm L) ∧
    (pm.location = none → pm.price = none → mdbFind store (build_query pm) = store) := by
  constructor
  · rw [mdbFind, List.mem_filter, listingMatches_build_query]
  · intro h1 h2
    obtain ⟨loc, pr⟩ := pm
    cases h1
    cases h2
    simp [mdbFind, build_query, listingMatches, List.filter_eq_self]

theorem claimC1_filter_correctness_witness :
    cexListing ∈ mdbFind [cexListing] (build_query ⟨some "cozy", some (.int 200)⟩) :=
  ((claimC1_filter_correctness [cexListing] ⟨some "cozy", some (.int 200)⟩
      cexListing).1).mpr
    ⟨by decide, fun s hs _ => by cases hs; decide,
      fun v hv _ _ => by cases hv; decide⟩

/-! ## Rank position in a stable descending sort

Auxiliary development for the alpha-monotonicity claim: the index of an
element in the stable descending sort equals the number of strictly
higher-scored elements plus the number of equal-scored elements that precede
it in the input. -/

theorem dropWhile_ne_eq_cons [DecidableEq α] (x : α) (l : List α) (h : x ∈ l) :
    ∃ t, l.dropWhile (fun y => decide (y ≠ x)) = x :: t := by
  induction l with
  | nil => cases h
  | cons a t ih =>
    by_cases hax : a = x
    · subst hax
      exact ⟨t, by simp [List.dropWhile_cons]⟩
    · have hx : x ∈ t := by
        rcases List.mem_cons.mp h with h1 | h1
        · exact absurd h1.symm hax
        · exact h1
      obtain ⟨t', ht⟩ := ih hx
      refine ⟨t', ?_⟩
      rw [List.dropWhile_cons_of_pos (by exact decide_eq_true hax)]
      exact ht

theorem indexOf_eq_length_takeWhile [DecidableEq α] (x : α) (l : List α) :
    l.indexOf x = (l.takeWhile (fun y => decide (y ≠ x))).length := by
  induction l with
  | nil => simp [List.indexOf]
  | cons a t ih =>
    by_cases hax : a = x
    · subst hax
      simp [List.indexOf_cons, List.takeWhile_cons]
    · simp [List.indexOf_cons, List.takeWhile_cons, hax, ih]

theorem countP_or_disjoint (p q : α → Bool) (l : List α)
    (h : ∀ y ∈ l, ¬(p y = true ∧ q y = true)) :
    l.countP (fun y => p y || q y) = l.countP p + l.countP q := by
  induction l with
  | nil => simp
  | cons a t ih =>
    have ht : ∀ y ∈ t, ¬(p y = true ∧ q y = true) :=
      fun y hy => h y (List.mem_cons_of_mem a hy)
    have ha := h a (List.mem_cons_self a t)
    rw [List.countP_cons, List.countP_cons, List.countP_cons, ih ht]
    by_cases hp : p a = true <;> by_cases hq : q a = true
    · exact absurd ⟨hp, hq⟩ ha
    · simp [hp, hq]
      omega
    · simp [hp, hq]
      omega
    · simp [hp, hq]

theorem length_eq_countP_three (key : α → ℚ) (x : α) (t : List α) :
    t.length = t.countP (fun y => decide (key x < key y)) +
      t.countP (fun y => decide (key y = key x)) +
      t.countP (fun y => decide (key y < key x)) := by
  induction t with
  | nil => simp
  | cons a t ih =>
    rw [List.length_cons, List.countP_cons, List.countP_cons, List.countP_cons, ih]
    by_cases h1 : key x < key a
    · have h2 : ¬ key a = key x := fun e => absurd (e ▸ h1) (lt_irrefl _)
      have h3 : ¬ key a < key x := lt_asymm h1
      rw [decide_eq_true h1, decide_eq_false h2, decide_eq_false h3]
      simp
      omega
    · by_cases h2 : key a = key x
      · have h3 : ¬ key a < key x := by
          rw [h2]
          exact lt_irrefl _
        rw [decide_eq_false h1, decide_eq_true h2, decide_eq_false h3]
        simp
        omega
      · have h3 : key a < key x := by
          rcases lt_trichotomy (key a) (key x) with h | h | h
          · exact h
          · exact absurd h h2
          · exact absurd h h1
        rw [decide_eq_false h1, decide_eq_false h2, decide_eq_true h3]
        simp
        omega

theorem append_cons_inj_of_not_mem {x : α} :
    ∀ {A : List α} {C B D : List α}, A ++ x :: B = C ++ x :: D →
      x ∉ A → x ∉ C → A = C := by
  intro A
  induction A with
  | nil =>
    intro C B D h hA hC
    cases C with
    | nil => rfl
    | cons c C =>
      simp only [List.nil_append, List.cons_append, List.cons.injEq] at h
      exact absurd (h.1 ▸ List.mem_cons_self c C) hC
  | cons a A ih =>
    intro C B D h hA hC
    cases C with
    | nil =>
      simp only [List.cons_append, List.nil_append, List.cons.injEq] at h
      exact absurd (h.1.symm ▸ List.mem_cons_self a A) hA
    | cons c C =>
      simp only [List.cons_append, List.cons.injEq] at h
      have hA' : x ∉ A := fun hm => hA (List.mem_cons_of_mem a hm)
      have hC' : x ∉ C := fun hm => hC (List.mem_cons_of_mem c hm)
      rw [h.1, ih h.2 hA' hC']

/-- Index of `x` in the stable descending sort by `key`: the number of
strictly higher-keyed elements of `l`, plus the number of equal-keyed
elements that precede the first occurrence of `x` in `l`. -/
theorem indexOf_mergeSort_key [DecidableEq α] (key : α → ℚ) (l : List α) (x : α)
    (hx : x ∈ l) :
    (l.mergeSort (fun p q => decide (key q ≤ key p))).indexOf x =
      l.countP (fun y => decide (key x < key y)) +
      (l.takeWhile (fun y => decide (y ≠ x))).countP
        (fun y => decide (key y = key x)) := by
  set le : α → α → Bool := fun p q => decide (key q ≤ key p) with hle
  have htrans : ∀ a b c, le a b → le b c → le a c := by
    intro a b c hab hbc
    simp only [hle, decide_eq_true_eq] at *
    exact le_trans hbc hab
  have htotal : ∀ a b, le a b || le b a := by
    intro a b
    simp only [hle, Bool.or_eq_true, decide_eq_true_eq]
    exact le_total _ _
  set s := l.mergeSort le with hs
  have hperm : s.Perm l := List.mergeSort_perm l le
  have hxs : x ∈ s := hperm.mem_iff.mpr hx
  have hsorted : s.Pairwise (fun p q => key q ≤ key p) :=
    List.Pairwise.imp (fun h => by simpa [hle] using h)
      (List.sorted_mergeSort htrans htotal l)
  obtain ⟨s₂, hs₂⟩ := dropWhile_ne_eq_cons x s hxs
  set s₁ := s.takeWhile (fun y => decide (y ≠ x)) with hs₁
  have hsplit : s = s₁ ++ x :: s₂ := by
    rw [hs₁, ← hs₂]
    exact (List.takeWhile_append_dropWhile _ _).symm
  have hxs₁ : x ∉ s₁ := by
    intro hmem
    have := List.mem_takeWhile_imp hmem
    simp at this
  obtain ⟨l₂, hl₂⟩ := dropWhile_ne_eq_cons x l hx
  set l₁ := l.takeWhile (fun y => decide (y ≠ x)) with hl₁
  have hlsplit : l = l₁ ++ x :: l₂ := by
    rw [hl₁, ← hl₂]
    exact (List.takeWhile_append_dropWhile _ _).symm
  have hxl₁ : x ∉ l₁ := by
    intro hmem
    have := List.mem_takeWhile_imp hmem
    simp at this
  have hidx : s.indexOf x = s₁.length := indexOf_eq_length_takeWhile x s
  have hpw := hsorted
  rw [hsplit, List.pairwise_append] at hpw
  obtain ⟨hpw₁, hpw₂, hpw₁₂⟩ := hpw
  have ha : s₁.countP (fun y => decide (key y < key x)) = 0 := by
    rw [List.countP_eq_zero]
    intro y hy
    have hge : key x ≤ key y := hpw₁₂ y hy x (List.mem_cons_self x s₂)
    simp [not_lt.mpr hge]
  have hb0 : (x :: s₂).countP (fun y => decide (key x < key y)) = 0 := by
    rw [List.countP_eq_zero]
    intro y hy
    rcases List.mem_cons.mp hy with h1 | h1
    · subst h1
      simp
    · have hyx : key y ≤ key x := (List.pairwise_cons.mp hpw₂).1 y h1
      simp [not_lt.mpr hyx]
  have hb : s₁.countP (fun y => decide (key x < key y)) =
      l.countP (fun y => decide (key x < key y)) := by
    have h1 : s.countP (fun y => decide (key x < key y)) =
        l.countP (fun y => decide (key x < key y)) := hperm.countP_eq _
    rw [hsplit, List.countP_append, hb0] at h1
    simpa using h1
  have hfilter_pw : (l.filter (fun y => decide (key y = key x))).Pairwise
      (fun p q => le p q = true) := by
    apply List.pairwise_of_forall_mem_list
    intro p hp q hq
    have hp' := List.of_mem_filter hp
    have hq' := List.of_mem_filter hq
    simp only [decide_eq_true_eq] at hp' hq'
    simp [hle, hp', hq']
  have hsubl : (l.filter (fun y => decide (key y = key x))).Sublist s :=
    List.sublist_mergeSort htrans htotal hfilter_pw (List.filter_sublist l)
  have hfeq : l.filter (fun y => decide (key y = key x)) =
      s.filter (fun y => decide (key y = key x)) := by
    apply List.Sublist.eq_of_length
    · have h1 := hsubl.filter (fun y => decide (key y = key x))
      have h2 : List.filter (fun y => decide (key y = key x))
          (List.filter (fun y => decide (key y = key x)) l) =
          List.filter (fun y => decide (key y = key x)) l := by
        rw [List.filter_eq_self]
        intro a ha
        exact (List.mem_filter.mp ha).2
      rwa [h2] at h1
    · rw [← List.countP_eq_length_filter, ← List.countP_eq_length_filter]
      exact (hperm.countP_eq _).symm
  have hfs : s.filter (fun y => decide (key y = key x)) =
      s₁.filter (fun y => decide (key y = key x)) ++
        x :: s₂.filter (fun y => decide (key y = key x)) := by
    rw [hsplit, List.filter_append, List.filter_cons]
    simp
  have hfl : l.filter (fun y => decide (key y = key x)) =
      l₁.filter (fun y => decide (key y = key x)) ++
        x :: l₂.filter (fun y => decide (key y = key x)) := by
    rw [hlsplit, List.filter_append, List.filter_cons]
    simp
  have hkey : l₁.filter (fun y => decide (key y = key x)) =
      s₁.filter (fun y => decide (key y = key x)) := by
    have heq := hfeq
    rw [hfl, hfs] at heq
    exact append_cons_inj_of_not_mem heq
      (fun hm => hxl₁ (List.mem_of_mem_filter hm))
      (fun hm => hxs₁ (List.mem_of_mem_filter hm))
  have hc : s₁.countP (fun y => decide (key y = key x)) =
      l₁.countP (fun y => decide (key y = key x)) := by
    rw [List.countP_eq_length_filter, List.countP_eq_length_filter, hkey]
  rw [hidx, length_eq_countP_three key x s₁, ha, hb, hc]
  omega

/-- C8: holding `beta` and every candidate's semantic and lexical sub-scores
fixed, increasing `alpha` never demotes a candidate whose semantic score
strictly exceeds every other candidate's: its rank position in the rerank
output (0-based index) does not increase. -/
theorem claimC8_alpha_monotone [DecidableEq α] (sem lex : α → ℚ) (b : ℚ)
    (a a' : ℚ) (ha : a ≤ a') (cs : List α) (x : α) (hx : x ∈ cs)
    (hmax : ∀ y ∈ cs, y ≠ x → sem y < sem x) :
    (rerank a' b sem lex cs).indexOf x ≤ (rerank a b sem lex cs).indexOf x := by
  have e1 : (rerank a b sem lex cs).indexOf x =
      cs.countP (fun y =>
        decide (finalScore a b sem lex x < finalScore a b sem lex y)) +
      (cs.takeWhile (fun y => decide (y ≠ x))).countP
        (fun y => decide (finalScore a b sem lex y = finalScore a b sem lex x)) :=
    indexOf_mergeSort_key (finalScore a b sem lex) cs x hx
  have e2 : (rerank a' b sem lex cs).indexOf x =
      cs.countP (fun y =>
        decide (finalScore a' b sem lex x < finalScore a' b sem lex y)) +
      (cs.takeWhile (fun y => decide (y ≠ x))).countP
        (fun y => decide (finalScore a' b sem lex y = finalScore a' b sem lex x)) :=
    indexOf_mergeSort_key (finalScore a' b sem lex) cs x hx
  obtain ⟨l₂, hl₂⟩ := dropWhile_ne_eq_cons x cs hx
  set l₁ := cs.takeWhile (fun y => decide (y ≠ x)) with hl₁
  have hsplit : cs = l₁ ++ x :: l₂ := by
    rw [hl₁, ← hl₂]
    exact (List.takeWhile_append_dropWhile _ _).symm
  have key_le : ∀ y ∈ cs, y ≠ x →
      finalScore a' b sem lex x ≤ finalScore a' b sem lex y →
      finalScore a b sem lex x ≤ finalScore a b sem lex y := by
    intro y hy hne hxy
    have hs := hmax y hy hne
    simp only [finalScore] at hxy ⊢
    nlinarith [mul_le_mul_of_nonneg_left hs.le (sub_nonneg.mpr ha)]
  have key_lt : ∀ y ∈ cs, y ≠ x →
      finalScore a' b sem lex x < finalScore a' b sem lex y →
      finalScore a b sem lex x < finalScore a b sem lex y := by
    intro y hy hne hxy
    have hs := hmax y hy hne
    simp only [finalScore] at hxy ⊢
    nlinarith [mul_le_mul_of_nonneg_left hs.le (sub_nonneg.mpr ha)]
  have hgroup : ∀ c : ℚ,
      cs.countP (fun y =>
          decide (finalScore c b sem lex x < finalScore c b sem lex y)) +
        l₁.countP (fun y =>
          decide (finalScore c b sem lex y = finalScore c b sem lex x)) =
      l₁.countP (fun y =>
          decide (finalScore c b sem lex x < finalScore c b sem lex y) ||
          decide (finalScore c b sem lex y = finalScore c b sem lex x)) +
        (x :: l₂).countP (fun y =>
          decide (finalScore c b sem lex x < finalScore c b sem lex y)) := by
    intro c
    have hsplitc : cs.countP (fun y =>
        decide (finalScore c b sem lex x < finalScore c b sem lex y)) =
        l₁.countP (fun y =>
          decide (finalScore c b sem lex x < finalScore c b sem lex y)) +
        (x :: l₂).countP (fun y =>
          decide (finalScore c b sem lex x < finalScore c b sem lex y)) := by
      conv_lhs => rw [hsplit]
      rw [List.countP_append]
    have hdis : l₁.countP (fun y =>
        decide (finalScore c b sem lex x < finalScore c b sem lex y) ||
        decide (finalScore c b sem lex y = finalScore c b sem lex x)) =
        l₁.countP (fun y =>
          decide (finalScore c b sem lex x < finalScore c b sem lex y)) +
        l₁.countP (fun y =>
          decide (finalScore c b sem lex y = finalScore c b sem lex x)) := by
      apply countP_or_disjoint
      intro y hy
      simp only [decide_eq_true_eq, not_and]
      intro hlt heq
      rw [heq] at hlt
      exact absurd hlt (lt_irrefl _)
    omega
  have hmem₁ : ∀ y ∈ l₁, y ∈ cs ∧ y ≠ x := by
    intro y hy
    refine ⟨?_, ?_⟩
    · rw [hsplit]
      exact List.mem_append_left _ hy
    · have := List.mem_takeWhile_imp hy
      simpa using this
  have hmono₁ : l₁.countP (fun y =>
      decide (finalScore a' b sem lex x < finalScore a' b sem lex y) ||
      decide (finalScore a' b sem lex y = finalScore a' b sem lex x)) ≤
      l₁.countP (fun y =>
        decide (finalScore a b sem lex x < finalScore a b sem lex y) ||
        decide (finalScore a b sem lex y = finalScore a b sem lex x)) := by
    apply List.countP_mono_left
    intro y hy hor
    obtain ⟨hycs, hyne⟩ := hmem₁ y hy
    simp only [Bool.or_eq_true, decide_eq_true_eq] at hor ⊢
    have hle' : finalScore a' b sem lex x ≤ finalScore a' b sem lex y := by
      rcases hor with h | h
      · exact h.le
      · exact le_of_eq h.symm
    rcases lt_or_eq_of_le (key_le y hycs hyne hle') with h | h
    · exact Or.inl h
    · exact Or.inr h.symm
  have hmono₂ : (x :: l₂).countP (fun y =>
      decide (finalScore a' b sem lex x < finalScore a' b sem lex y)) ≤
      (x :: l₂).countP (fun y =>
        decide (finalScore a b sem lex x < finalScore a b sem lex y)) := by
    apply List.countP_mono_left
    intro y hy hlt
    simp only [decide_eq_true_eq] at hlt ⊢
    by_cases hyx : y = x
    · subst hyx
      exact absurd hlt (lt_irrefl _)
    · have hycs : y ∈ cs := by
        rw [hsplit]
        exact List.mem_append_right _ hy
      exact key_lt y hycs hyx hlt
  rw [e1, e2, hgroup a, hgroup a']
  exact Nat.add_le_add hmono₁ hmono₂

theorem claimC8_alpha_monotone_witness :
    (1 : ℚ) ≤ 2 ∧
    (rerank 2 1 (fun n : Nat => (n : ℚ)) (fun _ => 0) [0, 1]).indexOf 1 ≤
      (rerank 1 1 (fun n : Nat => (n : ℚ)) (fun _ => 0) [0, 1]).indexOf 1 :=
  ⟨by norm_num,
    claimC8_alpha_monotone (fun n : Nat => (n : ℚ)) (fun _ => 0) 1 1 2
      (by norm_num) [0, 1] 1 (by decide)
      (by
        intro y hy hne
        rcases List.mem_cons.mp hy with rfl | hy'
        · norm_num
        · rcases List.mem_cons.mp hy' with rfl | hy''
          · exact absurd rfl hne
          · cases hy'')⟩

end HabitatAgent
